import Mathlib

/-!
Formal model of the TigVCS core: the content-addressed blob store
(internal/safe/safe.go), the line diff engine (internal/diff/diff.go) and
the workspace staging operations (internal/workspace/local.go).

File contents, database records and the in-memory cache are modelled as
association lists: the filesystem maps path strings to byte lists, the
metadata database maps key strings to typed values (standing for the
JSON-encoded values the key-value backend stores, whose encoding
round-trips exactly), and the LRU cache is a most-recent-first list that
is truncated to its capacity.
-/

/-- Byte sequences (Go []byte); every byte produced by the modelled
operations is below 256. -/
abbrev Bytes := List Nat

/-! SHA-256 (crypto/sha256.Sum256, as used by Safe.hashContent and
utils.HashContent). Words are Nat values kept below 2^32. -/

/-- Truncation to 32 bits (Go uint32 arithmetic). -/
def u32 (x : Nat) : Nat := x % 4294967296

/-- Right rotation of a 32-bit word by n bits. -/
def rotr32 (n x : Nat) : Nat := u32 ((x >>> n) ||| (x <<< (32 - n)))

/-- The Ch function of SHA-256 (complement taken inside 32 bits). -/
def ch32 (x y z : Nat) : Nat := (x &&& y) ^^^ ((x ^^^ 4294967295) &&& z)

/-- The Maj function of SHA-256. -/
def maj32 (x y z : Nat) : Nat := (x &&& y) ^^^ (x &&& z) ^^^ (y &&& z)

/-- Big sigma 0. -/
def bsig0 (x : Nat) : Nat := rotr32 2 x ^^^ rotr32 13 x ^^^ rotr32 22 x

/-- Big sigma 1. -/
def bsig1 (x : Nat) : Nat := rotr32 6 x ^^^ rotr32 11 x ^^^ rotr32 25 x

/-- Small sigma 0. -/
def ssig0 (x : Nat) : Nat := rotr32 7 x ^^^ rotr32 18 x ^^^ (x >>> 3)

/-- Small sigma 1. -/
def ssig1 (x : Nat) : Nat := rotr32 17 x ^^^ rotr32 19 x ^^^ (x >>> 10)

/-- The 64 SHA-256 round constants. -/
def sha256K : List Nat :=
  [1116352408, 1899447441, 3049323471, 3921009573, 961987163, 1508970993,
   2453635748, 2870763221, 3624381080, 310598401, 607225278, 1426881987,
   1925078388, 2162078206, 2614888103, 3248222580, 3835390401, 4022224774,
   264347078, 604807628, 770255983, 1249150122, 1555081692, 1996064986,
   2554220882, 2821834349, 2952996808, 3210313671, 3336571891, 3584528711,
   113926993, 338241895, 666307205, 773529912, 1294757372, 1396182291,
   1695183700, 1986661051, 2177026350, 2456956037, 2730485921, 2820302411,
   3259730800, 3345764771, 3516065817, 3600352804, 4094571909, 275423344,
   430227734, 506948616, 659060556, 883997877, 958139571, 1322822218,
   1537002063, 1747873779, 1955562222, 2024104815, 2227730452, 2361852424,
   2428436474, 2756734187, 3204031479, 3329325298]

/-- The initial SHA-256 hash state. -/
def sha256H0 : List Nat :=
  [1779033703, 3144134277, 1013904242, 2773480762,
   1359893119, 2600822924, 528734635, 1541459225]

/-- Extend a 16-word message block to the 64-word schedule. -/
def sha256Schedule (block : List Nat) : List Nat :=
  (List.range 48).foldl
    (fun w _ =>
      let n := w.length
      w ++ [u32 (ssig1 (w.getD (n - 2) 0) + w.getD (n - 7) 0 +
                 ssig0 (w.getD (n - 15) 0) + w.getD (n - 16) 0)])
    block

/-- One compression round; the state holds the eight working words. -/
def sha256Round (st : List Nat) (kw : Nat × Nat) : List Nat :=
  match st with
  | [a, b, c, d, e, f, g, h] =>
    let t1 := u32 (h + bsig1 e + ch32 e f g + kw.1 + kw.2)
    let t2 := u32 (bsig0 a + maj32 a b c)
    [u32 (t1 + t2), a, b, c, u32 (d + t1), e, f, g]
  | _ => st

/-- Compress one 16-word block into the running hash state. -/
def sha256Compress (h : List Nat) (block : List Nat) : List Nat :=
  let s := (sha256K.zip (sha256Schedule block)).foldl sha256Round h
  (h.zip s).map (fun p => u32 (p.1 + p.2))

/-- Big-endian 8-byte encoding of the message bit length. -/
def be64 (n : Nat) : Bytes :=
  [(n >>> 56) % 256, (n >>> 48) % 256, (n >>> 40) % 256, (n >>> 32) % 256,
   (n >>> 24) % 256, (n >>> 16) % 256, (n >>> 8) % 256, n % 256]

/-- SHA-256 padding: a 0x80 byte, zeros up to 56 mod 64, then the length. -/
def sha256Pad (msg : Bytes) : Bytes :=
  msg ++ [128] ++ List.replicate ((64 - (msg.length + 9) % 64) % 64) 0 ++
    be64 (msg.length * 8)

/-- Combine a 4-byte group into one big-endian 32-bit word. -/
def wordOfBytes (b : Bytes) : Nat := b.foldl (fun a x => a * 256 + x) 0

/-- Split a 32-bit word into its four big-endian bytes. -/
def bytesOfWord (x : Nat) : Bytes :=
  [(x >>> 24) % 256, (x >>> 16) % 256, (x >>> 8) % 256, x % 256]

/-- SHA-256 digest of a byte sequence (crypto/sha256.Sum256). -/
def sha256 (msg : Bytes) : Bytes :=
  let blocks := ((sha256Pad msg).toChunks 64).map (fun c => (c.toChunks 4).map wordOfBytes)
  (blocks.foldl sha256Compress sha256H0).flatMap bytesOfWord

/-- The lowercase hex digits used by encoding/hex. -/
def hexDigits : List Char :=
  (List.range 16).map Nat.digitChar

/-- encoding/hex.EncodeToString. -/
def hexEncode (bs : Bytes) : String :=
  String.mk (bs.flatMap (fun x => [hexDigits.getD (x / 16) '0', hexDigits.getD (x % 16) '0']))

/-- Safe.hashContent and utils.HashContent: lowercase hex of SHA-256. -/
def hashContent (content : Bytes) : String := hexEncode (sha256 content)

/-- The characters encoding/hex.DecodeString accepts (case-insensitive). -/
def isGoHexChar (c : Char) : Bool :=
  ('0' ≤ c && c ≤ '9') || ('a' ≤ c && c ≤ 'f') || ('A' ≤ c && c ≤ 'F')

/-- Success condition of encoding/hex.DecodeString: every character is a
hex digit and the length is even. -/
def hexDecodeOk (s : String) : Bool := s.data.all isGoHexChar && s.length % 2 == 0

/-- Safe.isValidHash: exactly 64 characters and hex-decodable. -/
def isValidHash (hash : String) : Bool := hash.length == 64 && hexDecodeOk hash

/-! Shape lemmas about the digest: 32 bytes, each below 256, so the hex
encoding is a valid 64-character hash for every input. -/

theorem sha256Round_length (st : List Nat) (kw : Nat × Nat) :
    (sha256Round st kw).length = st.length := by
  unfold sha256Round
  split <;> simp_all

theorem foldl_sha256Round_length (l : List (Nat × Nat)) (h : List Nat) :
    (l.foldl sha256Round h).length = h.length := by
  induction l generalizing h with
  | nil => rfl
  | cons x t ih => simp [List.foldl_cons, ih, sha256Round_length]

theorem sha256Compress_length (h block : List Nat) :
    (sha256Compress h block).length = h.length := by
  unfold sha256Compress
  simp [foldl_sha256Round_length]

theorem foldl_sha256Compress_length (bs : List (List Nat)) (h : List Nat) :
    (bs.foldl sha256Compress h).length = h.length := by
  induction bs generalizing h with
  | nil => rfl
  | cons x t ih => simp [List.foldl_cons, ih, sha256Compress_length]

theorem bind_bytesOfWord_length (l : List Nat) :
    (l.flatMap bytesOfWord).length = 4 * l.length := by
  induction l with
  | nil => rfl
  | cons x t ih => simp [List.flatMap_cons, ih, bytesOfWord]; ring

theorem sha256_length (msg : Bytes) : (sha256 msg).length = 32 := by
  unfold sha256
  rw [bind_bytesOfWord_length, foldl_sha256Compress_length]
  rfl

theorem sha256_mem_lt (msg : Bytes) : ∀ x ∈ sha256 msg, x < 256 := by
  intro x hx
  unfold sha256 at hx
  rw [List.mem_flatMap] at hx
  obtain ⟨w, -, hw⟩ := hx
  simp only [bytesOfWord, List.mem_cons, List.not_mem_nil, or_false] at hw
  rcases hw with h | h | h | h <;> (subst h; exact Nat.mod_lt _ (by norm_num))

theorem bind_hexPair_length (l : List Nat) (f g : Nat → Char) :
    (l.flatMap (fun x => [f x, g x])).length = 2 * l.length := by
  induction l with
  | nil => rfl
  | cons x t ih => simp [List.flatMap_cons, ih]; ring

theorem hashContent_length (b : Bytes) : (hashContent b).length = 64 := by
  show (String.mk _).length = 64
  rw [String.length_mk, bind_hexPair_length, sha256_length]

theorem hexDigit_is_hex : ∀ d, d < 16 → isGoHexChar (hexDigits.getD d '0') = true := by
  decide

theorem hashContent_all_hex (b : Bytes) :
    (hashContent b).data.all isGoHexChar = true := by
  rw [List.all_eq_true]
  intro c hc
  show isGoHexChar c = true
  have hmem : c ∈ (sha256 b).flatMap
      (fun x => [hexDigits.getD (x / 16) '0', hexDigits.getD (x % 16) '0']) := hc
  rw [List.mem_flatMap] at hmem
  obtain ⟨x, hx, hcx⟩ := hmem
  have hlt : x < 256 := sha256_mem_lt b x hx
  simp only [List.mem_cons, List.not_mem_nil, or_false] at hcx
  rcases hcx with h | h <;> subst h
  · exact hexDigit_is_hex _ (Nat.div_lt_of_lt_mul (by omega))
  · exact hexDigit_is_hex _ (Nat.mod_lt _ (by norm_num))

theorem hashContent_valid (b : Bytes) : isValidHash (hashContent b) = true := by
  unfold isValidHash hexDecodeOk
  rw [hashContent_length, hashContent_all_hex]
  rfl

/-! Association lists: the common substrate for the modelled filesystem,
the key-value database and the LRU cache. -/

/-- Look up the first binding of a key. -/
def alookup {α : Type} : List (String × α) → String → Option α
  | [], _ => none
  | (k, v) :: t, key => if key = k then some v else alookup t key

/-- Set a key: replace the first binding, or append a new one. -/
def aset {α : Type} : List (String × α) → String → α → List (String × α)
  | [], k, v => [(k, v)]
  | (k1, v1) :: t, k, v => if k = k1 then (k, v) :: t else (k1, v1) :: aset t k v

/-- Remove the first binding of a key. -/
def aerase {α : Type} : List (String × α) → String → List (String × α)
  | [], _ => []
  | (k1, v1) :: t, k => if k = k1 then t else (k1, v1) :: aerase t k

theorem alookup_aset {α : Type} (l : List (String × α)) (k : String) (v : α)
    (k1 : String) :
    alookup (aset l k v) k1 = if k1 = k then some v else alookup l k1 := by
  induction l with
  | nil => simp [aset, alookup]
  | cons p t ih =>
    obtain ⟨pk, pv⟩ := p
    by_cases h1 : k = pk
    · subst h1
      by_cases h2 : k1 = k <;> simp [aset, alookup, h2]
    · by_cases h2 : k1 = pk
      · subst h2
        simp [aset, alookup, h1, Ne.symm h1]
      · simp [aset, alookup, h1, h2, ih]

theorem alookup_aerase_ne {α : Type} (l : List (String × α)) (k k1 : String)
    (h : k1 ≠ k) : alookup (aerase l k) k1 = alookup l k1 := by
  induction l with
  | nil => rfl
  | cons p t ih =>
    obtain ⟨pk, pv⟩ := p
    by_cases h1 : k = pk
    · subst h1
      simp [aerase, alookup, h]
    · by_cases h2 : k1 = pk <;> simp [aerase, alookup, h1, h2, ih]

theorem mem_of_alookup {α : Type} (l : List (String × α)) (k : String) (v : α)
    (h : alookup l k = some v) : (k, v) ∈ l := by
  induction l with
  | nil => simp [alookup] at h
  | cons p t ih =>
    obtain ⟨pk, pv⟩ := p
    by_cases h1 : k = pk
    · subst h1
      simp [alookup] at h
      simp [h]
    · simp [alookup, h1] at h
      simp [ih h]

theorem mem_aset {α : Type} (l : List (String × α)) (k : String) (v : α)
    (p : String × α) (h : p ∈ aset l k v) : p = (k, v) ∨ p ∈ l := by
  induction l with
  | nil => simp [aset] at h; simp [h]
  | cons q t ih =>
    obtain ⟨qk, qv⟩ := q
    by_cases h1 : k = qk
    · subst h1
      simp [aset] at h
      rcases h with h | h <;> simp [h]
    · simp [aset, h1] at h
      rcases h with h | h
      · simp [h]
      · rcases ih h with h2 | h2 <;> simp [h2]

theorem mem_aerase {α : Type} (l : List (String × α)) (k : String)
    (p : String × α) (h : p ∈ aerase l k) : p ∈ l := by
  induction l with
  | nil => simp [aerase] at h
  | cons q t ih =>
    obtain ⟨qk, qv⟩ := q
    by_cases h1 : k = qk
    · subst h1; simp [aerase] at h; simp [h]
    · simp [aerase, h1] at h
      rcases h with h | h
      · simp [h]
      · simp [ih h]

theorem alookup_none_of_not_mem {α : Type} (l : List (String × α)) (k : String)
    (h : k ∉ l.map Prod.fst) : alookup l k = none := by
  induction l with
  | nil => rfl
  | cons p t ih =>
    obtain ⟨pk, pv⟩ := p
    simp only [List.map_cons, List.mem_cons, not_or] at h
    simp [alookup, h.1, ih h.2]

theorem alookup_aerase_self {α : Type} (l : List (String × α)) (k : String)
    (h : (l.map Prod.fst).Nodup) : alookup (aerase l k) k = none := by
  induction l with
  | nil => rfl
  | cons p t ih =>
    obtain ⟨pk, pv⟩ := p
    simp only [List.map_cons, List.nodup_cons] at h
    by_cases h1 : k = pk
    · subst h1
      simpa [aerase] using alookup_none_of_not_mem t k h.1
    · simp [aerase, alookup, h1, ih h.2]

theorem map_fst_aset_of_mem {α : Type} (l : List (String × α)) (k : String)
    (v : α) (h : k ∈ l.map Prod.fst) :
    (aset l k v).map Prod.fst = l.map Prod.fst := by
  induction l with
  | nil => simp at h
  | cons p t ih =>
    obtain ⟨pk, pv⟩ := p
    by_cases h1 : k = pk
    · subst h1; simp [aset]
    · simp only [List.map_cons, List.mem_cons, h1, false_or] at h
      simp [aset, h1, ih h]

theorem map_fst_aset_of_not_mem {α : Type} (l : List (String × α)) (k : String)
    (v : α) (h : k ∉ l.map Prod.fst) :
    (aset l k v).map Prod.fst = l.map Prod.fst ++ [k] := by
  induction l with
  | nil => simp [aset]
  | cons p t ih =>
    obtain ⟨pk, pv⟩ := p
    simp only [List.map_cons, List.mem_cons, not_or] at h
    simp [aset, h.1, ih h.2]

theorem nodupKeys_aset {α : Type} (l : List (String × α)) (k : String) (v : α)
    (h : (l.map Prod.fst).Nodup) : ((aset l k v).map Prod.fst).Nodup := by
  by_cases hm : k ∈ l.map Prod.fst
  · rwa [map_fst_aset_of_mem l k v hm]
  · rw [map_fst_aset_of_not_mem l k v hm]
    simp [List.nodup_append, h, hm]

theorem sublist_aerase {α : Type} (l : List (String × α)) (k : String) :
    (aerase l k).Sublist l := by
  induction l with
  | nil => simp [aerase]
  | cons p t ih =>
    obtain ⟨pk, pv⟩ := p
    by_cases h1 : k = pk
    · subst h1; simp [aerase]
    · simp only [aerase, if_neg h1]
      exact ih.cons₂ _

theorem nodupKeys_aerase {α : Type} (l : List (String × α)) (k : String)
    (h : (l.map Prod.fst).Nodup) : ((aerase l k).map Prod.fst).Nodup :=
  ((sublist_aerase l k).map Prod.fst).nodup h

/-! The content store (internal/safe/safe.go). -/

/-- ContentMeta (safe.go): metadata stored under the key content:hash.
RefCount is a Go uint32; its value is kept below 2^32 by the operations.
Timestamps are abstract ticks supplied by the caller as a now parameter. -/
structure ContentMeta where
  hash : String
  size : Nat
  refCount : Nat
  compressed : Bool
  createdAt : Nat
  accessedAt : Nat
deriving DecidableEq

/-- shared.Change (shared/types/types.go). The rendered diff text and hunk
list carried on the Go struct are kept as the diff field; hunks are not
consulted by any modelled operation. -/
structure WsChange where
  path : String
  type : String
  oldPath : String
  oldHash : String
  newHash : String
  mode : Nat
  size : Nat
  modTime : Nat
  diff : String
  gated : Bool
  content : String
deriving DecidableEq

/-- FileState (change/auto_tracker.go): the last recorded state of a path. -/
structure WsFileState where
  hash : String
  modTime : Nat
  size : Nat
deriving DecidableEq

/-- A value stored in the key-value database, standing for the JSON bytes
badger holds; reading a value at the wrong type is a decode error. -/
inductive DBVal where
  | metaV (m : ContentMeta)
  | changeV (c : WsChange)
  | stateV (s : WsFileState)
  | nilV
deriving DecidableEq

/-- The mutable state a Safe operates on: the on-disk blob files (keyed by
path), the metadata database, and the LRU content cache together with its
capacity (Options.CacheSize). -/
structure World where
  fs : List (String × Bytes)
  db : List (String × DBVal)
  cache : List (String × Bytes)
  cacheSize : Nat
deriving DecidableEq

/-- An empty store with the given cache capacity. -/
def emptyWorld (cap : Nat) : World :=
  { fs := [], db := [], cache := [], cacheSize := cap }

/-- The error outcomes of the modelled Safe operations. -/
inductive SafeErr where
  | invalidHash
  | notFound
  | hashMismatch
  | badMeta
  | decompressPanic
deriving DecidableEq

/-- lru.Cache.Add: insert as most recent, evicting beyond the capacity. -/
def lruAdd (cap : Nat) (cache : List (String × Bytes)) (k : String) (v : Bytes) :
    List (String × Bytes) :=
  ((k, v) :: aerase cache k).take cap

/-- lru.Cache.Get: look up and promote the entry to most recent. -/
def lruGet (cache : List (String × Bytes)) (k : String) :
    Option (Bytes × List (String × Bytes)) :=
  match alookup cache k with
  | none => none
  | some v => some (v, (k, v) :: aerase cache k)

/-- lru.Cache.Contains: membership without touching recency. -/
def lruContains (cache : List (String × Bytes)) (k : String) : Bool :=
  (alookup cache k).isSome

/-- Safe.contentPath: root/hash[0:2]/hash[2:]. -/
def contentPath (root hash : String) : String :=
  root ++ "/" ++ hash.take 2 ++ "/" ++ hash.drop 2

/-- Safe.getMeta: read and decode the content:hash record. -/
def getMeta (db : List (String × DBVal)) (hash : String) :
    Except SafeErr ContentMeta :=
  match alookup db ("content:" ++ hash) with
  | none => .error .notFound
  | some (.metaV m) => .ok m
  | some _ => .error .badMeta

/-- Safe.storeMeta: write the content:hash record. -/
def storeMeta (db : List (String × DBVal)) (m : ContentMeta) :
    List (String × DBVal) :=
  aset db ("content:" ++ m.hash) (.metaV m)

/-- Safe.deleteMeta: remove the content:hash record. -/
def deleteMeta (db : List (String × DBVal)) (hash : String) :
    List (String × DBVal) :=
  aerase db ("content:" ++ hash)

/-- Safe.Exists: cache membership first, then metadata. -/
def safeExists (w : World) (hash : String) : Except SafeErr Bool :=
  if isValidHash hash then
    if lruContains w.cache hash then .ok true
    else
      match getMeta w.db hash with
      | .ok _ => .ok true
      | .error .notFound => .ok false
      | .error e => .error e
  else .error .invalidHash

/-- Safe.incrementRefCount: uint32 increment of the stored RefCount. -/
def incrementRefCount (db : List (String × DBVal)) (hash : String) :
    Except SafeErr (List (String × DBVal)) :=
  match getMeta db hash with
  | .error e => .error e
  | .ok m => .ok (storeMeta db { m with refCount := (m.refCount + 1) % 4294967296 })

/-- Safe.Store. A nil input is already the empty byte list here. On a hit
the reference count is incremented; otherwise the blob file is written,
metadata created with RefCount 1 and Compressed false, and the original
bytes cached. -/
def safeStore (root : String) (now : Nat) (w : World) (content : Bytes) :
    Except SafeErr (String × World) :=
  let hash := hashContent content
  match safeExists w hash with
  | .error e => .error e
  | .ok true =>
    match incrementRefCount w.db hash with
    | .error e => .error e
    | .ok db1 => .ok (hash, { w with db := db1 })
  | .ok false =>
    let cPath := contentPath root hash
    let fs1 := aset w.fs cPath content
    let meta : ContentMeta :=
      { hash := hash, size := content.length, refCount := 1, compressed := false,
        createdAt := now, accessedAt := now }
    let db1 := storeMeta w.db meta
    let cache1 := lruAdd w.cacheSize w.cache hash content
    .ok (hash, { w with fs := fs1, db := db1, cache := cache1 })

/-- Safe.Get. Serves from the cache when present; otherwise reads metadata
and the blob file, verifies the recomputed hash, refreshes AccessedAt and
repopulates the cache. The Compressed branch would call the nil decompress
function in the Go code and is modelled as a distinguished error; stores
never set the flag. -/
def safeGet (root : String) (now : Nat) (w : World) (hash : String) :
    Except SafeErr (Bytes × World) :=
  if isValidHash hash then
    match lruGet w.cache hash with
    | some (content, cache1) => .ok (content, { w with cache := cache1 })
    | none =>
      match getMeta w.db hash with
      | .error e => .error e
      | .ok meta =>
        match alookup w.fs (contentPath root hash) with
        | none => .error .notFound
        | some content =>
          if meta.compressed then .error .decompressPanic
          else if hashContent content = hash then
            let cache1 := lruAdd w.cacheSize w.cache hash content
            let db1 := storeMeta w.db { meta with accessedAt := now }
            .ok (content, { w with cache := cache1, db := db1 })
          else .error .hashMismatch
  else .error .invalidHash

/-- Safe.Delete: uint32 decrement of RefCount; at zero the blob file,
metadata and cache entry are removed, otherwise the metadata is rewritten. -/
def safeDelete (root : String) (w : World) (hash : String) :
    Except SafeErr World :=
  if isValidHash hash then
    match getMeta w.db hash with
    | .error e => .error e
    | .ok meta =>
      let rc := if meta.refCount = 0 then 4294967295 else meta.refCount - 1
      if rc = 0 then
        .ok { w with fs := aerase w.fs (contentPath root hash),
                     db := deleteMeta w.db hash,
                     cache := aerase w.cache hash }
      else .ok { w with db := storeMeta w.db { meta with refCount := rc } }
  else .error .invalidHash

/-- Safe.Verify: a Get followed by a second recomputed-hash comparison. -/
def safeVerify (root : String) (now : Nat) (w : World) (hash : String) :
    Except SafeErr World :=
  match safeGet root now w hash with
  | .error e => .error e
  | .ok (content, w1) =>
    if hashContent content = hash then .ok w1 else .error .hashMismatch

/-- The rollback loop of Safe.StoreBatch: delete each already stored hash
in order, ignoring individual Delete errors as the Go code does. -/
def rollbackDeletes (root : String) : World → List String → World
  | w, [] => w
  | w, h :: t =>
    rollbackDeletes root
      (match safeDelete root w h with | .ok w1 => w1 | .error _ => w) t

/-- The loop of Safe.StoreBatch with the hashes accumulated in reverse. -/
def storeBatchLoop (root : String) (now : Nat) :
    World → List Bytes → List String → Except SafeErr (List String) × World
  | w, [], acc => (.ok acc.reverse, w)
  | w, c :: rest, acc =>
    match safeStore root now w c with
    | .ok (h, w1) => storeBatchLoop root now w1 rest (h :: acc)
    | .error e => (.error e, rollbackDeletes root w acc.reverse)

/-- Safe.StoreBatch: store each item; on a failure at item i, delete the
hashes stored for items 0..i-1 before returning the error. -/
def safeStoreBatch (root : String) (now : Nat) (w : World) (contents : List Bytes) :
    Except SafeErr (List String) × World :=
  storeBatchLoop root now w contents []

/-- The persisted reference count of a hash (zero when no record exists). -/
def rcOf (w : World) (hash : String) : Nat :=
  match alookup w.db ("content:" ++ hash) with
  | some (.metaV m) => m.refCount
  | _ => 0

set_option maxRecDepth 40000

/-! Claim C7: hash validation on Get. -/

theorem isValidHash_eq_false_of_not (h : String)
    (hno : ¬(h.length = 64 ∧ h.data.all isGoHexChar = true)) :
    isValidHash h = false := by
  unfold isValidHash hexDecodeOk
  by_cases hlen : h.length = 64
  · by_cases hall : h.data.all isGoHexChar = true
    · exact absurd ⟨hlen, hall⟩ hno
    · simp [hall]
  · simp [hlen]

/-- C7 (amended): Get rejects with InvalidHash exactly the strings that
are not 64 hex characters; the check is case-insensitive, so uppercase
hex digits pass validation (see the counterexample for the lookup). -/
theorem get_invalid_hash_amended (root : String) (now : Nat) (w : World)
    (h : String) (hno : ¬(h.length = 64 ∧ h.data.all isGoHexChar = true)) :
    safeGet root now w h = .error .invalidHash := by
  unfold safeGet
  rw [isValidHash_eq_false_of_not h hno]
  rfl

/-- C7 witness: a malformed hash is rejected with InvalidHash. -/
theorem get_invalid_hash_witness :
    safeGet "" 0 (emptyWorld 0) "not-a-hash" = .error .invalidHash :=
  get_invalid_hash_amended "" 0 (emptyWorld 0) "not-a-hash" (by decide)

/-- C7 counterexample: a 64-character uppercase hex string is accepted by
isValidHash and looked up (yielding NotFound on an empty store), not
rejected with InvalidHash as the claim states. -/
theorem get_uppercase_hash_cex :
    isValidHash (String.mk (List.replicate 64 'A')) = true ∧
    safeGet "" 0 (emptyWorld 0) (String.mk (List.replicate 64 'A')) =
      .error .notFound := by
  exact ⟨by decide, rfl⟩

/-! Claim C1: store then get round-trips bit for bit. -/

/-- C1: for every byte sequence b, including the empty one, storing b and
then retrieving it by the returned hash yields exactly b. The hypotheses
say b's hash is not already occupied in the metadata database or cache
(as in a fresh store), so the write takes the creation path. -/
theorem safe_store_get_roundtrip (root : String) (now now2 : Nat) (w : World)
    (b : Bytes)
    (hdb : alookup w.db ("content:" ++ hashContent b) = none)
    (hcache : alookup w.cache (hashContent b) = none) :
    ∃ w1 w2, safeStore root now w b = .ok (hashContent b, w1) ∧
      safeGet root now2 w1 (hashContent b) = .ok (b, w2) := by
  have hval := hashContent_valid b
  have hex : safeExists w (hashContent b) = .ok false := by
    unfold safeExists lruContains getMeta
    simp [hval, hcache, hdb]
  have hstore : safeStore root now w b = .ok (hashContent b,
      { w with fs := aset w.fs (contentPath root (hashContent b)) b,
               db := aset w.db ("content:" ++ hashContent b) (.metaV
                 { hash := hashContent b, size := b.length, refCount := 1,
                   compressed := false, createdAt := now, accessedAt := now }),
               cache := lruAdd w.cacheSize w.cache (hashContent b) b }) := by
    simp only [safeStore, hex, storeMeta]
  have hget : ∃ w2, safeGet root now2
      { w with fs := aset w.fs (contentPath root (hashContent b)) b,
               db := aset w.db ("content:" ++ hashContent b) (.metaV
                 { hash := hashContent b, size := b.length, refCount := 1,
                   compressed := false, createdAt := now, accessedAt := now }),
               cache := lruAdd w.cacheSize w.cache (hashContent b) b }
      (hashContent b) = .ok (b, w2) := by
    cases hcap : w.cacheSize with
    | zero =>
      exact ⟨_, by
        simp only [safeGet, hval, if_true, lruAdd, hcap, List.take_zero, lruGet,
          alookup, getMeta, alookup_aset, if_pos, storeMeta]
        rfl⟩
    | succ n =>
      exact ⟨_, by
        simp only [safeGet, hval, if_true, lruAdd, hcap, List.take_succ_cons,
          lruGet, alookup, if_pos]
        rfl⟩
  obtain ⟨w2, hg⟩ := hget
  exact ⟨_, w2, hstore, hg⟩

/-- C1 witness: the round trip at the empty byte sequence on an empty
store with the production cache capacity. -/
theorem safe_store_get_roundtrip_witness :
    ∃ w1 w2, safeStore "" 0 (emptyWorld 1000) [] = .ok (hashContent [], w1) ∧
      safeGet "" 1 w1 (hashContent []) = .ok ([], w2) :=
  safe_store_get_roundtrip "" 0 1 (emptyWorld 1000) [] rfl rfl

/-! Claims C2 and C10: iterated Store and Delete, and the uint32
reference count. -/

/-- Apply Store n times, keeping the state of a failed call unchanged. -/
def storeN (root : String) (now : Nat) (b : Bytes) : Nat → World → World
  | 0, w => w
  | n + 1, w =>
    match safeStore root now w b with
    | .ok (_, w1) => storeN root now b n w1
    | .error _ => w

/-- Apply Delete n times, keeping the state of a failed call unchanged. -/
def deleteN (root h : String) : Nat → World → World
  | 0, w => w
  | n + 1, w =>
    match safeDelete root w h with
    | .ok w1 => deleteN root h n w1
    | .error _ => w

/-- The store state reached by Storing b from the empty world: one blob
file, one metadata record carrying the given reference count, and the
content in the cache subject to the capacity. -/
def wAfter (root : String) (now cap : Nat) (b : Bytes) (rc : Nat) : World :=
  { fs := [(contentPath root (hashContent b), b)],
    db := [("content:" ++ hashContent b, .metaV
      { hash := hashContent b, size := b.length, refCount := rc,
        compressed := false, createdAt := now, accessedAt := now })],
    cache := [(hashContent b, b)].take cap,
    cacheSize := cap }

theorem safeExists_empty (cap : Nat) (b : Bytes) :
    safeExists (emptyWorld cap) (hashContent b) = .ok false := by
  simp [safeExists, emptyWorld, lruContains, alookup, getMeta, hashContent_valid]

theorem safeExists_wAfter (root : String) (now cap : Nat) (b : Bytes) (rc : Nat) :
    safeExists (wAfter root now cap b rc) (hashContent b) = .ok true := by
  cases cap with
  | zero => simp [safeExists, wAfter, lruContains, alookup, getMeta,
      hashContent_valid]
  | succ n => simp [safeExists, wAfter, lruContains, alookup, getMeta,
      hashContent_valid]

theorem safeStore_empty (root : String) (now cap : Nat) (b : Bytes) :
    safeStore root now (emptyWorld cap) b = .ok (hashContent b, wAfter root now cap b 1) := by
  simp only [safeStore, safeExists_empty cap b]
  simp [emptyWorld, wAfter, storeMeta, aset, lruAdd, aerase]

theorem safeStore_wAfter (root : String) (now cap : Nat) (b : Bytes) (rc : Nat) :
    safeStore root now (wAfter root now cap b rc) b =
      .ok (hashContent b, wAfter root now cap b ((rc + 1) % 4294967296)) := by
  simp only [safeStore, safeExists_wAfter root now cap b rc]
  simp [incrementRefCount, getMeta, wAfter, alookup, storeMeta, aset]

theorem storeN_wAfter (root : String) (now cap : Nat) (b : Bytes) :
    ∀ n rc, rc < 4294967296 →
      storeN root now b n (wAfter root now cap b rc) =
        wAfter root now cap b ((rc + n) % 4294967296) := by
  intro n
  induction n with
  | zero =>
    intro rc hrc
    simp [storeN, Nat.mod_eq_of_lt hrc]
  | succ k ih =>
    intro rc hrc
    show (match safeStore root now (wAfter root now cap b rc) b with
      | .ok (_, w1) => storeN root now b k w1
      | .error _ => wAfter root now cap b rc) = _
    rw [safeStore_wAfter root now cap b rc]
    show storeN root now b k (wAfter root now cap b ((rc + 1) % 4294967296)) = _
    rw [ih ((rc + 1) % 4294967296) (Nat.mod_lt _ (by norm_num))]
    rw [Nat.mod_add_mod]
    congr 1
    omega

theorem storeN_empty (root : String) (now cap : Nat) (b : Bytes) (n : Nat)
    (h1 : 1 ≤ n) :
    storeN root now b n (emptyWorld cap) =
      wAfter root now cap b (n % 4294967296) := by
  obtain ⟨m, rfl⟩ : ∃ m, n = m + 1 := ⟨n - 1, by omega⟩
  show (match safeStore root now (emptyWorld cap) b with
    | .ok (_, w1) => storeN root now b m w1
    | .error _ => emptyWorld cap) = _
  rw [safeStore_empty root now cap b]
  show storeN root now b m (wAfter root now cap b 1) = _
  rw [storeN_wAfter root now cap b m 1 (by norm_num)]
  congr 1
  omega

theorem safeDelete_wAfter_step (root : String) (now cap : Nat) (b : Bytes)
    (m : Nat) (h2 : 2 ≤ m) (hM : m ≤ 4294967296) :
    safeDelete root (wAfter root now cap b (m % 4294967296)) (hashContent b) =
      .ok (wAfter root now cap b ((m - 1) % 4294967296)) := by
  have hval := hashContent_valid b
  by_cases hm : m = 4294967296
  · subst hm
    simp [safeDelete, hval, getMeta, wAfter, alookup, storeMeta, aset]
  · have hrc : m % 4294967296 = m := Nat.mod_eq_of_lt (by omega)
    have hrc1 : (m - 1) % 4294967296 = m - 1 := Nat.mod_eq_of_lt (by omega)
    rw [hrc, hrc1]
    simp [safeDelete, hval, getMeta, wAfter, alookup, storeMeta, aset,
      show ¬(m = 0) by omega, show ¬(m - 1 = 0) by omega]

theorem safeDelete_wAfter_one (root : String) (now cap : Nat) (b : Bytes) :
    safeDelete root (wAfter root now cap b 1) (hashContent b) =
      .ok (emptyWorld cap) := by
  simp [safeDelete, hashContent_valid, getMeta, wAfter, alookup, deleteMeta,
    emptyWorld]
  cases cap with
  | zero => simp [aerase]
  | succ n => simp [aerase]

theorem deleteN_wAfter_partial (root : String) (now cap : Nat) (b : Bytes) :
    ∀ k m, k + 1 ≤ m → m ≤ 4294967296 →
      deleteN root (hashContent b) k (wAfter root now cap b (m % 4294967296)) =
        wAfter root now cap b ((m - k) % 4294967296) := by
  intro k
  induction k with
  | zero => intro m h1 h2; simp [deleteN]
  | succ j ih =>
    intro m h1 h2
    show (match safeDelete root (wAfter root now cap b (m % 4294967296))
        (hashContent b) with
      | .ok w1 => deleteN root (hashContent b) j w1
      | .error _ => wAfter root now cap b (m % 4294967296)) = _
    rw [safeDelete_wAfter_step root now cap b m (by omega) h2]
    show deleteN root (hashContent b) j
      (wAfter root now cap b ((m - 1) % 4294967296)) = _
    rw [ih (m - 1) (by omega) (by omega)]
    congr 1
    omega

theorem deleteN_wAfter_all (root : String) (now cap : Nat) (b : Bytes) :
    ∀ m, 1 ≤ m → m ≤ 4294967296 →
      deleteN root (hashContent b) m (wAfter root now cap b (m % 4294967296)) =
        emptyWorld cap := by
  intro m
  induction m with
  | zero => intro h1 _; omega
  | succ j ih =>
    intro _ h2
    cases Nat.eq_zero_or_pos j with
    | inl hj =>
      subst hj
      show (match safeDelete root (wAfter root now cap b (1 % 4294967296))
          (hashContent b) with
        | .ok w1 => deleteN root (hashContent b) 0 w1
        | .error _ => wAfter root now cap b (1 % 4294967296)) = _
      rw [show (1 : Nat) % 4294967296 = 1 by norm_num,
        safeDelete_wAfter_one root now cap b]
      rfl
    | inr hj =>
      show (match safeDelete root (wAfter root now cap b ((j + 1) % 4294967296))
          (hashContent b) with
        | .ok w1 => deleteN root (hashContent b) j w1
        | .error _ => wAfter root now cap b ((j + 1) % 4294967296)) = _
      rw [safeDelete_wAfter_step root now cap b (j + 1) (by omega) h2]
      rw [show j + 1 - 1 = j by omega]
      exact ih hj (by omega)

theorem rcOf_wAfter (root : String) (now cap : Nat) (b : Bytes) (rc : Nat) :
    rcOf (wAfter root now cap b rc) (hashContent b) = rc := by
  simp [rcOf, wAfter, alookup]

/-- C2 (amended): for 1 ≤ n ≤ 2^32, starting from an empty store, each of
the n Stores of b succeeds and returns the same hash; afterwards exactly
one blob file holds b and the metadata carries ref count n mod 2^32 (so
ref_count = 2 after a double Store); the n Deletes then remove the blob
file and metadata entirely, with Exists true before every Delete and
false only after the last one. The bound is forced by the uint32
wrap-around exhibited in the counterexample. -/
theorem store_delete_lifecycle_amended (root : String) (now cap : Nat)
    (b : Bytes) (n : Nat) (h1 : 1 ≤ n) (h2 : n ≤ 4294967296) :
    (∀ k, k < n → safeStore root now (storeN root now b k (emptyWorld cap)) b =
        .ok (hashContent b, storeN root now b (k + 1) (emptyWorld cap))) ∧
    (storeN root now b n (emptyWorld cap)).fs =
      [(contentPath root (hashContent b), b)] ∧
    rcOf (storeN root now b n (emptyWorld cap)) (hashContent b) =
      n % 4294967296 ∧
    (∀ k, k < n → safeExists (deleteN root (hashContent b) k
        (storeN root now b n (emptyWorld cap))) (hashContent b) = .ok true) ∧
    deleteN root (hashContent b) n (storeN root now b n (emptyWorld cap)) =
      emptyWorld cap ∧
    safeExists (deleteN root (hashContent b) n
        (storeN root now b n (emptyWorld cap))) (hashContent b) = .ok false := by
  have hsn : storeN root now b n (emptyWorld cap) =
      wAfter root now cap b (n % 4294967296) := storeN_empty root now cap b n h1
  refine ⟨?_, ?_, ?_, ?_, ?_, ?_⟩
  · intro k hk
    cases Nat.eq_zero_or_pos k with
    | inl hk0 =>
      subst hk0
      show safeStore root now (emptyWorld cap) b = _
      rw [safeStore_empty root now cap b, storeN_empty root now cap b 1 le_rfl]
    | inr hk1 =>
      rw [storeN_empty root now cap b k hk1,
        storeN_empty root now cap b (k + 1) (by omega),
        safeStore_wAfter root now cap b (k % 4294967296), Nat.mod_add_mod]
  · rw [hsn]; rfl
  · rw [hsn, rcOf_wAfter]
  · intro k hk
    rw [hsn, deleteN_wAfter_partial root now cap b k n (by omega) h2,
      safeExists_wAfter]
  · rw [hsn]
    exact deleteN_wAfter_all root now cap b n h1 h2
  · rw [hsn, deleteN_wAfter_all root now cap b n h1 h2, safeExists_empty]

/-- C2 witness: the double-Store instance of the amended lifecycle at the
empty byte sequence: ref count 2 after two Stores, and both Deletes needed
before Exists turns false. -/
theorem store_delete_lifecycle_witness :
    rcOf (storeN "" 0 [] 2 (emptyWorld 0)) (hashContent []) = 2 ∧
    safeExists (deleteN "" (hashContent []) 1 (storeN "" 0 [] 2 (emptyWorld 0)))
      (hashContent []) = .ok true ∧
    safeExists (deleteN "" (hashContent []) 2 (storeN "" 0 [] 2 (emptyWorld 0)))
      (hashContent []) = .ok false := by
  have h := store_delete_lifecycle_amended "" 0 0 [] 2 (by norm_num) (by norm_num)
  refine ⟨?_, ?_, h.2.2.2.2.2⟩
  · simpa using h.2.2.1
  · exact h.2.2.2.1 1 (by norm_num)

/-- C2 counterexample: with n = 2^32 + 1 Stores of the empty content, the
uint32 reference count has wrapped to 1, so the very first Delete already
removes the record and Exists is false although n - 1 Deletes remain; the
claim as stated (for every n, Exists turns false only after the n-th
Delete) is therefore violated at n = 2^32 + 1. -/
theorem store_delete_lifecycle_overflow_cex :
    safeExists (deleteN "" (hashContent []) 1
        (storeN "" 0 [] 4294967297 (emptyWorld 0))) (hashContent []) =
      .ok false ∧ (1 : Nat) < 4294967297 := by
  constructor
  · rw [storeN_empty "" 0 0 [] 4294967297 (by norm_num)]
    rw [show (4294967297 : Nat) % 4294967296 = 1 % 4294967296 by norm_num]
    rw [deleteN_wAfter_all "" 0 0 [] 1 le_rfl (by norm_num)]
    exact safeExists_empty 0 []
  · norm_num

/-- One call into the content store; claim C10 ranges over sequences of
these. -/
inductive SafeOp where
  | store (b : Bytes)
  | get (h : String)
  | delete (h : String)

/-- Execute one operation, keeping the state unchanged when it fails. -/
def execOp (root : String) (now : Nat) (w : World) : SafeOp → World
  | .store b =>
    match safeStore root now w b with
    | .ok (_, w1) => w1
    | .error _ => w
  | .get h =>
    match safeGet root now w h with
    | .ok (_, w1) => w1
    | .error _ => w
  | .delete h =>
    match safeDelete root w h with
    | .ok w1 => w1
    | .error _ => w

/-- Execute a sequence of operations from left to right. -/
def execOps (root : String) (now : Nat) : World → List SafeOp → World
  | w, [] => w
  | w, op :: t => execOps root now (execOp root now w op) t

/-- The number of Store calls in a sequence. -/
def countStores : List SafeOp → Nat
  | [] => 0
  | .store _ :: t => countStores t + 1
  | _ :: t => countStores t

/-- Every metadata record in the database has a reference count between 1
and the given bound. -/
def MetaInv (w : World) (bound : Nat) : Prop :=
  ∀ k m, (k, DBVal.metaV m) ∈ w.db → 1 ≤ m.refCount ∧ m.refCount ≤ bound

theorem metaInv_mono (w : World) (b1 b2 : Nat) (h : b1 ≤ b2)
    (hinv : MetaInv w b1) : MetaInv w b2 := by
  intro k m hm
  exact ⟨(hinv k m hm).1, le_trans (hinv k m hm).2 h⟩

theorem safeExists_false_getMeta (w : World) (h : String)
    (hex : safeExists w h = .ok false) :
    getMeta w.db h = .error .notFound := by
  unfold safeExists at hex
  by_cases hv : isValidHash h = true
  · rw [if_pos hv] at hex
    by_cases hc : lruContains w.cache h = true
    · rw [if_pos hc] at hex
      simp at hex
    · rw [if_neg hc] at hex
      cases hgm : getMeta w.db h with
      | ok m => rw [hgm] at hex; simp at hex
      | error e =>
        cases e <;> rw [hgm] at hex <;> first | rfl | simp at hex
  · rw [if_neg hv] at hex
    simp at hex

theorem safeStore_ok_db (root : String) (now : Nat) (w : World) (b : Bytes)
    (hsh : String) (w1 : World)
    (hok : safeStore root now w b = .ok (hsh, w1)) :
    hsh = hashContent b ∧
    ((∃ m, getMeta w.db (hashContent b) = .ok m ∧
        w1.db = storeMeta w.db
          { m with refCount := (m.refCount + 1) % 4294967296 }) ∨
      (getMeta w.db (hashContent b) = .error .notFound ∧
        w1.db = storeMeta w.db
          { hash := hashContent b, size := b.length, refCount := 1,
            compressed := false, createdAt := now, accessedAt := now })) := by
  simp only [safeStore] at hok
  cases hex : safeExists w (hashContent b) with
  | error e => rw [hex] at hok; simp at hok
  | ok flag =>
    rw [hex] at hok
    cases flag with
    | true =>
      unfold incrementRefCount at hok
      cases hgm : getMeta w.db (hashContent b) with
      | error e => rw [hgm] at hok; simp at hok
      | ok m =>
        rw [hgm] at hok
        simp only [Except.ok.injEq, Prod.mk.injEq] at hok
        refine ⟨hok.1.symm, Or.inl ⟨m, rfl, ?_⟩⟩
        rw [← hok.2]
    | false =>
      simp only [Except.ok.injEq, Prod.mk.injEq] at hok
      refine ⟨hok.1.symm, Or.inr ⟨safeExists_false_getMeta w _ hex, ?_⟩⟩
      rw [← hok.2]

theorem safeGet_ok_db (root : String) (now : Nat) (w : World) (h : String)
    (c : Bytes) (w1 : World) (hok : safeGet root now w h = .ok (c, w1)) :
    w1.db = w.db ∨
    ∃ m, getMeta w.db h = .ok m ∧
      w1.db = storeMeta w.db { m with accessedAt := now } := by
  simp only [safeGet] at hok
  split at hok
  case isFalse => simp at hok
  split at hok
  case h_1 =>
    simp only [Except.ok.injEq, Prod.mk.injEq] at hok
    left
    rw [← hok.2]
  case h_2 =>
    split at hok
    case h_1 => simp at hok
    case h_2 =>
      rename_i meta hgm
      split at hok
      case h_1 => simp at hok
      case h_2 =>
        split at hok
        case isTrue => simp at hok
        case isFalse =>
          split at hok
          case isTrue =>
            simp only [Except.ok.injEq, Prod.mk.injEq] at hok
            right
            exact ⟨meta, hgm, by rw [← hok.2]⟩
          case isFalse => simp at hok

theorem safeDelete_ok_db (root : String) (w : World) (h : String) (w1 : World)
    (hok : safeDelete root w h = .ok w1) :
    ∃ m, getMeta w.db h = .ok m ∧
      (w1.db = deleteMeta w.db h ∨
        ∃ rc, rc = (if m.refCount = 0 then 4294967295 else m.refCount - 1) ∧
          rc ≠ 0 ∧ w1.db = storeMeta w.db { m with refCount := rc }) := by
  simp only [safeDelete] at hok
  split at hok
  case isFalse => simp at hok
  split at hok
  case h_1 => simp at hok
  case h_2 =>
    rename_i m hgm
    split at hok
    case isTrue =>
      rename_i hz0
      split at hok
      case isTrue => simp_all
      case isFalse =>
        simp only [Except.ok.injEq] at hok
        refine ⟨m, hgm, Or.inr ⟨4294967295, by rw [if_pos hz0], by norm_num, ?_⟩⟩
        rw [← hok]
    case isFalse =>
      rename_i hz0
      split at hok
      case isTrue =>
        simp only [Except.ok.injEq] at hok
        exact ⟨m, hgm, Or.inl (by rw [← hok])⟩
      case isFalse =>
        rename_i hz1
        simp only [Except.ok.injEq] at hok
        refine ⟨m, hgm, Or.inr ⟨m.refCount - 1, by rw [if_neg hz0], hz1, ?_⟩⟩
        rw [← hok]

theorem getMeta_ok_lookup (db : List (String × DBVal)) (h : String)
    (m : ContentMeta) (hg : getMeta db h = .ok m) :
    alookup db ("content:" ++ h) = some (.metaV m) := by
  unfold getMeta at hg
  split at hg
  · simp at hg
  · rename_i m1 heq
    simp only [Except.ok.injEq] at hg
    rw [heq, hg]
  · simp at hg

theorem metaInv_execOp_store (root : String) (now : Nat) (w : World)
    (b : Bytes) (s : Nat) (hinv : MetaInv w s) (hs : s + 1 < 4294967296) :
    MetaInv (execOp root now w (.store b)) (s + 1) := by
  simp only [execOp]
  cases hok : safeStore root now w b with
  | error e =>
    exact metaInv_mono w s (s + 1) (by omega) hinv
  | ok p =>
    obtain ⟨hsh, w1⟩ := p
    obtain ⟨-, hdb⟩ := safeStore_ok_db root now w b hsh w1 hok
    show MetaInv w1 (s + 1)
    intro k m hm
    rcases hdb with ⟨m0, hgm, hdb⟩ | ⟨hgm, hdb⟩
    · rw [hdb] at hm
      rcases mem_aset _ _ _ _ hm with heq | hold
      · have hm0 : 1 ≤ m0.refCount ∧ m0.refCount ≤ s :=
          hinv _ m0 (mem_of_alookup _ _ _ (getMeta_ok_lookup w.db _ m0 hgm))
        have hmod : (m0.refCount + 1) % 4294967296 = m0.refCount + 1 :=
          Nat.mod_eq_of_lt (by omega)
        have hmv : m = { m0 with refCount := (m0.refCount + 1) % 4294967296 } := by
          have := congrArg Prod.snd heq
          simp at this
          exact this
        rw [hmv]
        simp only [hmod]
        exact ⟨by omega, by omega⟩
      · exact ⟨(hinv k m hold).1, by have := (hinv k m hold).2; omega⟩
    · rw [hdb] at hm
      rcases mem_aset _ _ _ _ hm with heq | hold
      · have hmv : m =
            { hash := hashContent b, size := b.length, refCount := 1,
              compressed := false, createdAt := now, accessedAt := now } := by
          have := congrArg Prod.snd heq
          simp at this
          exact this
        rw [hmv]
        refine ⟨le_rfl, ?_⟩
        show (1 : Nat) ≤ s + 1
        omega
      · exact ⟨(hinv k m hold).1, by have := (hinv k m hold).2; omega⟩

theorem metaInv_execOp_get (root : String) (now : Nat) (w : World)
    (h : String) (s : Nat) (hinv : MetaInv w s) :
    MetaInv (execOp root now w (.get h)) s := by
  simp only [execOp]
  cases hok : safeGet root now w h with
  | error e =>
    exact hinv
  | ok p =>
    obtain ⟨c, w1⟩ := p
    show MetaInv w1 s
    rcases safeGet_ok_db root now w h c w1 hok with hdb | ⟨m0, hgm, hdb⟩
    · intro k m hm
      rw [hdb] at hm
      exact hinv k m hm
    · intro k m hm
      rw [hdb] at hm
      rcases mem_aset _ _ _ _ hm with heq | hold
      · have hm0 : 1 ≤ m0.refCount ∧ m0.refCount ≤ s :=
          hinv _ m0 (mem_of_alookup _ _ _ (getMeta_ok_lookup w.db _ m0 hgm))
        have hmv : m = { m0 with accessedAt := now } := by
          have := congrArg Prod.snd heq
          simp at this
          exact this
        rw [hmv]
        exact hm0
      · exact hinv k m hold

theorem metaInv_execOp_delete (root : String) (now : Nat) (w : World)
    (h : String) (s : Nat) (hinv : MetaInv w s) :
    MetaInv (execOp root now w (.delete h)) s := by
  simp only [execOp]
  cases hok : safeDelete root w h with
  | error e =>
    exact hinv
  | ok w1 =>
    show MetaInv w1 s
    obtain ⟨m0, hgm, hdb⟩ := safeDelete_ok_db root w h w1 hok
    have hm0 : 1 ≤ m0.refCount ∧ m0.refCount ≤ s :=
      hinv _ m0 (mem_of_alookup _ _ _ (getMeta_ok_lookup w.db _ m0 hgm))
    rcases hdb with hdb | ⟨rc, hrc, hne, hdb⟩
    · intro k m hm
      rw [hdb] at hm
      exact hinv k m (mem_aerase _ _ _ hm)
    · intro k m hm
      rw [hdb] at hm
      rcases mem_aset _ _ _ _ hm with heq | hold
      · have hmv : m = { m0 with refCount := rc } := by
          have := congrArg Prod.snd heq
          simp at this
          exact this
        have hrcv : rc = m0.refCount - 1 := by
          rw [hrc, if_neg (by omega)]
        rw [hmv]
        refine ⟨?_, ?_⟩
        · simp only []
          omega
        · simp only []
          omega
      · exact hinv k m hold

theorem metaInv_execOps (root : String) (now : Nat) :
    ∀ (ops : List SafeOp) (w : World) (s : Nat),
      MetaInv w s → s + countStores ops < 4294967296 →
      MetaInv (execOps root now w ops) (s + countStores ops) := by
  intro ops
  induction ops with
  | nil =>
    intro w s hinv hb
    simpa [execOps, countStores] using hinv
  | cons op t ih =>
    intro w s hinv hb
    cases op with
    | store b =>
      have hc : countStores (SafeOp.store b :: t) = countStores t + 1 := rfl
      rw [hc] at hb ⊢
      have h1 : MetaInv (execOp root now w (.store b)) (s + 1) :=
        metaInv_execOp_store root now w b s hinv (by omega)
      have h2 := ih (execOp root now w (.store b)) (s + 1) h1 (by omega)
      show MetaInv (execOps root now (execOp root now w (.store b)) t) _
      exact metaInv_mono _ _ _ (by omega) h2
    | get h =>
      have hc : countStores (SafeOp.get h :: t) = countStores t := rfl
      rw [hc] at hb ⊢
      exact ih (execOp root now w (.get h)) s
        (metaInv_execOp_get root now w h s hinv) hb
    | delete h =>
      have hc : countStores (SafeOp.delete h :: t) = countStores t := rfl
      rw [hc] at hb ⊢
      exact ih (execOp root now w (.delete h)) s
        (metaInv_execOp_delete root now w h s hinv) hb

theorem storeN_of_error (root : String) (now : Nat) (b : Bytes) (k : Nat)
    (w : World) (e : SafeErr) (h : safeStore root now w b = .error e) :
    storeN root now b k w = w := by
  cases k with
  | zero => rfl
  | succ j =>
    show (match safeStore root now w b with
      | .ok (_, w1) => storeN root now b j w1
      | .error _ => w) = w
    rw [h]

theorem execOps_replicate_store (root : String) (now : Nat) (b : Bytes) :
    ∀ (n : Nat) (w : World),
      execOps root now w (List.replicate n (SafeOp.store b)) =
        storeN root now b n w := by
  intro n
  induction n with
  | zero => intro w; rfl
  | succ k ih =>
    intro w
    show execOps root now (execOp root now w (.store b))
      (List.replicate k (SafeOp.store b)) = storeN root now b (k + 1) w
    rw [ih]
    cases hok : safeStore root now w b with
    | ok p =>
      obtain ⟨h1, w1⟩ := p
      have hexec : execOp root now w (.store b) = w1 := by
        simp only [execOp, hok]
      have hsn : storeN root now b (k + 1) w = storeN root now b k w1 := by
        show (match safeStore root now w b with
          | .ok (_, w2) => storeN root now b k w2
          | .error _ => w) = _
        rw [hok]
      rw [hexec, hsn]
    | error e =>
      have hexec : execOp root now w (.store b) = w := by
        simp only [execOp, hok]
      have hsn : storeN root now b (k + 1) w = w := by
        show (match safeStore root now w b with
          | .ok (_, w2) => storeN root now b k w2
          | .error _ => w) = _
        rw [hok]
      rw [hexec, hsn]
      exact storeN_of_error root now b k w e hok

/-- C10 (amended): starting from an empty store, after any sequence of
Store, Get and Delete calls containing fewer than 2^32 Stores, every
ContentMeta record still persisted in the metadata database has
RefCount at least 1. The bound is forced by the uint32 wrap-around in
the counterexample. -/
theorem refcount_invariant_amended (root : String) (now cap : Nat)
    (ops : List SafeOp) (hn : countStores ops < 4294967296)
    (k : String) (m : ContentMeta)
    (hm : alookup (execOps root now (emptyWorld cap) ops).db k =
      some (.metaV m)) :
    1 ≤ m.refCount := by
  have hinv : MetaInv (emptyWorld cap) 0 := by
    intro k1 m1 hmem
    simp [emptyWorld] at hmem
  have h2 := metaInv_execOps root now ops (emptyWorld cap) 0 hinv
    (by omega)
  exact (h2 k m (mem_of_alookup _ _ _ hm)).1

/-- C10 witness: the invariant applied to a single Store of the empty
content on an empty store, whose persisted record has RefCount 1. -/
theorem refcount_invariant_witness :
    countStores [SafeOp.store []] < 4294967296 ∧
    1 ≤ ContentMeta.refCount
      { hash := hashContent [], size := 0, refCount := 1,
        compressed := false, createdAt := 0, accessedAt := 0 } := by
  refine ⟨by norm_num [countStores], ?_⟩
  refine refcount_invariant_amended "" 0 0 [SafeOp.store []]
    (by norm_num [countStores]) ("content:" ++ hashContent []) _ ?_
  have hrep : execOps "" 0 (emptyWorld 0) [SafeOp.store []] =
      storeN "" 0 [] 1 (emptyWorld 0) :=
    execOps_replicate_store "" 0 [] 1 (emptyWorld 0)
  rw [hrep, storeN_empty "" 0 0 [] 1 le_rfl]
  simp [wAfter, alookup]

/-- C10 counterexample: after exactly 2^32 Stores of the empty content,
the metadata record persists in the database with RefCount 0 (the uint32
reference count wrapped around), contradicting the claim that every
persisted record has RefCount at least 1. -/
theorem refcount_wraparound_cex :
    alookup (execOps "" 0 (emptyWorld 0)
        (List.replicate 4294967296 (SafeOp.store []))).db
      ("content:" ++ hashContent []) =
    some (.metaV
      { hash := hashContent [], size := 0, refCount := 0,
        compressed := false, createdAt := 0, accessedAt := 0 }) := by
  rw [execOps_replicate_store "" 0 [] 4294967296 (emptyWorld 0)]
  rw [storeN_empty "" 0 0 [] 4294967296 (by norm_num)]
  simp [wAfter, alookup]

/-! Claim C3: integrity detection on Get and Verify. -/

/-- C3 (amended): when the hash is not in the cache, a corrupted blob
(stored bytes whose recomputed hash disagrees with the key) makes Get
fail with the hash-mismatch error rather than return the bytes, and
Verify, which reads through Get, reports the same error. The cache-miss
condition is forced by the counterexample: on a cache hit Get serves the
cached bytes without any disk read or hash check. -/
theorem get_corruption_cache_miss (root : String) (now : Nat) (w : World)
    (h : String) (m : ContentMeta) (c : Bytes)
    (hv : isValidHash h = true)
    (hcache : alookup w.cache h = none)
    (hmeta : alookup w.db ("content:" ++ h) = some (.metaV m))
    (hcomp : m.compressed = false)
    (hblob : alookup w.fs (contentPath root h) = some c)
    (hne : hashContent c ≠ h) :
    safeGet root now w h = .error .hashMismatch ∧
    safeVerify root now w h = .error .hashMismatch := by
  have hget : safeGet root now w h = .error .hashMismatch := by
    simp only [safeGet, hv, if_true, lruGet, hcache, getMeta, hmeta, hblob]
    simp [hcomp, hne]
  exact ⟨hget, by simp only [safeVerify, hget]⟩

/-- C3 witness: a store holding a single corrupted blob (the bytes 0x00
under the hash of the empty content) with an empty cache; Get and Verify
both fail with the hash-mismatch error. -/
theorem get_corruption_cache_miss_witness :
    safeGet "" 0
      { fs := [(contentPath "" (hashContent []), [0])],
        db := [("content:" ++ hashContent [], .metaV
          { hash := hashContent [], size := 0, refCount := 1,
            compressed := false, createdAt := 0, accessedAt := 0 })],
        cache := [], cacheSize := 0 } (hashContent []) =
      .error .hashMismatch :=
  (get_corruption_cache_miss "" 0
    { fs := [(contentPath "" (hashContent []), [0])],
      db := [("content:" ++ hashContent [], .metaV
        { hash := hashContent [], size := 0, refCount := 1,
          compressed := false, createdAt := 0, accessedAt := 0 })],
      cache := [], cacheSize := 0 } (hashContent [])
    { hash := hashContent [], size := 0, refCount := 1,
      compressed := false, createdAt := 0, accessedAt := 0 } [0]
    (hashContent_valid []) rfl (by simp [alookup]) rfl (by simp [alookup])
    (by decide)).1

/-- C3 counterexample: after the blob bytes on disk are corrupted while
the metadata and the cache entry are untouched, Get still succeeds and
returns the cached (original) bytes instead of failing with an integrity
error, because the cache is consulted before any disk read; Verify goes
through the same path and reports no error either. -/
theorem get_corruption_cache_hit_cex :
    (safeGet "" 0
      { fs := [(contentPath "" (hashContent []), [0])],
        db := [("content:" ++ hashContent [], .metaV
          { hash := hashContent [], size := 0, refCount := 1,
            compressed := false, createdAt := 0, accessedAt := 0 })],
        cache := [(hashContent [], [])], cacheSize := 1000 }
      (hashContent [])).toOption.map Prod.fst = some [] ∧
    (safeVerify "" 0
      { fs := [(contentPath "" (hashContent []), [0])],
        db := [("content:" ++ hashContent [], .metaV
          { hash := hashContent [], size := 0, refCount := 1,
            compressed := false, createdAt := 0, accessedAt := 0 })],
        cache := [(hashContent [], [])], cacheSize := 1000 }
      (hashContent [])).isOk = true := by
  constructor
  · rfl
  · rfl

/-! Claim C8: StoreBatch rollback. -/

theorem contentKey_inj (x y : String) (h : "content:" ++ x = "content:" ++ y) :
    x = y := by
  have hd := congrArg String.data h
  rw [String.data_append, String.data_append] at hd
  exact String.ext (List.append_cancel_left hd)

theorem getMeta_notFound_lookup (db : List (String × DBVal)) (h : String)
    (hg : getMeta db h = .error .notFound) :
    alookup db ("content:" ++ h) = none := by
  unfold getMeta at hg
  split at hg
  · assumption
  · simp at hg
  · simp at hg

/-- Well-formedness of the metadata database: keys are unique and every
metadata record sits under the content: key of its own Hash field (which
is how storeMeta addresses records). -/
def DbOk (w : World) : Prop :=
  (w.db.map Prod.fst).Nodup ∧
  ∀ k m, alookup w.db k = some (.metaV m) → k = "content:" ++ m.hash

theorem rcOf_eq_of_db (w w1 : World) (hx : String) (m1 : ContentMeta)
    (hdb : w1.db = aset w.db ("content:" ++ hx) (.metaV m1)) (h1 : String) :
    rcOf w1 h1 = if h1 = hx then m1.refCount else rcOf w h1 := by
  unfold rcOf
  rw [hdb, alookup_aset]
  by_cases he : h1 = hx
  · rw [if_pos (by rw [he]), if_pos he]
  · rw [if_neg (fun hc => he (contentKey_inj _ _ hc)), if_neg he]

theorem dbOk_lookup_hash (w : World) (h : String) (m : ContentMeta)
    (hdbok : DbOk w) (hl : alookup w.db ("content:" ++ h) = some (.metaV m)) :
    m.hash = h :=
  (contentKey_inj _ _ (hdbok.2 _ m hl)).symm

theorem dbOk_aset_meta (w w1 : World) (m1 : ContentMeta)
    (hdb : w1.db = aset w.db ("content:" ++ m1.hash) (.metaV m1))
    (hdbok : DbOk w) : DbOk w1 := by
  constructor
  · rw [hdb]
    exact nodupKeys_aset _ _ _ hdbok.1
  · intro k m hl
    rw [hdb, alookup_aset] at hl
    by_cases he : k = "content:" ++ m1.hash
    · rw [if_pos he] at hl
      simp only [Option.some.injEq, DBVal.metaV.injEq] at hl
      rw [he, hl]
    · rw [if_neg he] at hl
      exact hdbok.2 k m hl

theorem safeStore_ok_rcOf (root : String) (now : Nat) (w : World) (b : Bytes)
    (hsh : String) (w1 : World)
    (hok : safeStore root now w b = .ok (hsh, w1)) (hdbok : DbOk w)
    (hwrap : rcOf w (hashContent b) + 1 < 4294967296) :
    (∀ h1, rcOf w1 h1 =
      if h1 = hashContent b then rcOf w (hashContent b) + 1 else rcOf w h1) ∧
    DbOk w1 := by
  obtain ⟨-, hdb⟩ := safeStore_ok_db root now w b hsh w1 hok
  rcases hdb with ⟨m0, hgm, hdb⟩ | ⟨hgm, hdb⟩
  · have hl := getMeta_ok_lookup w.db _ m0 hgm
    have hm0 : m0.hash = hashContent b := dbOk_lookup_hash w _ m0 hdbok hl
    have hrc : rcOf w (hashContent b) = m0.refCount := by
      simp [rcOf, hl]
    have hdb1 : w1.db = aset w.db ("content:" ++ hashContent b)
        (.metaV { m0 with refCount := (m0.refCount + 1) % 4294967296 }) := by
      rw [hdb]
      unfold storeMeta
      rw [show ({ m0 with refCount := (m0.refCount + 1) % 4294967296 }
        : ContentMeta).hash = m0.hash from rfl, hm0]
    constructor
    · intro h1
      rw [rcOf_eq_of_db w w1 (hashContent b) _ hdb1 h1]
      by_cases he : h1 = hashContent b
      · rw [if_pos he, if_pos he]
        show (m0.refCount + 1) % 4294967296 = _
        rw [hrc] at hwrap ⊢
        exact Nat.mod_eq_of_lt hwrap
      · rw [if_neg he, if_neg he]
    · refine dbOk_aset_meta w w1
        { m0 with refCount := (m0.refCount + 1) % 4294967296 } ?_ hdbok
      rw [hdb1]
      rw [show ({ m0 with refCount := (m0.refCount + 1) % 4294967296 }
        : ContentMeta).hash = m0.hash from rfl, hm0]
  · have hl := getMeta_notFound_lookup w.db _ hgm
    have hrc : rcOf w (hashContent b) = 0 := by
      simp [rcOf, hl]
    have hdb1 : w1.db = aset w.db ("content:" ++ hashContent b)
        (.metaV
          { hash := hashContent b, size := b.length, refCount := 1,
            compressed := false, createdAt := now, accessedAt := now }) := by
      rw [hdb]
      unfold storeMeta
      rfl
    constructor
    · intro h1
      rw [rcOf_eq_of_db w w1 (hashContent b) _ hdb1 h1]
      by_cases he : h1 = hashContent b
      · rw [if_pos he, if_pos he, hrc]
      · rw [if_neg he, if_neg he]
    · refine dbOk_aset_meta w w1
        { hash := hashContent b, size := b.length, refCount := 1,
          compressed := false, createdAt := now, accessedAt := now } ?_ hdbok
      rw [hdb1]

theorem rcOf_pos_lookup (w : World) (h : String) (hrc : 1 ≤ rcOf w h) :
    ∃ m, alookup w.db ("content:" ++ h) = some (.metaV m) ∧
      m.refCount = rcOf w h := by
  unfold rcOf at hrc ⊢
  cases hl : alookup w.db ("content:" ++ h) with
  | none => rw [hl] at hrc; simp at hrc
  | some v =>
    cases v with
    | metaV m => exact ⟨m, rfl, rfl⟩
    | changeV c => rw [hl] at hrc; simp at hrc
    | stateV st => rw [hl] at hrc; simp at hrc
    | nilV => rw [hl] at hrc; simp at hrc

theorem safeDelete_pos (root : String) (w : World) (h : String)
    (hval : isValidHash h = true) (hdbok : DbOk w) (hrc : 1 ≤ rcOf w h) :
    ∃ w1, safeDelete root w h = .ok w1 ∧
      (∀ h1, rcOf w1 h1 = if h1 = h then rcOf w h - 1 else rcOf w h1) ∧
      DbOk w1 := by
  obtain ⟨m, hl, hmrc⟩ := rcOf_pos_lookup w h hrc
  have hgm : getMeta w.db h = .ok m := by
    unfold getMeta
    rw [hl]
  have hmh : m.hash = h := dbOk_lookup_hash w h m hdbok hl
  have hnz : ¬(m.refCount = 0) := by omega
  by_cases hone : m.refCount - 1 = 0
  · refine ⟨{ w with fs := aerase w.fs (contentPath root h), db := deleteMeta w.db h, cache := aerase w.cache h }, ?_, ?_, ?_⟩
    · simp only [safeDelete, hval, if_true, hgm]
      rw [if_neg hnz, if_pos hone]
    · intro h1
      by_cases he : h1 = h
      · rw [he, if_pos rfl]
        show (match alookup (aerase w.db ("content:" ++ h)) ("content:" ++ h)
          with | some (.metaV m1) => m1.refCount | _ => 0) = rcOf w h - 1
        rw [alookup_aerase_self _ _ hdbok.1]
        show (0 : Nat) = rcOf w h - 1
        omega
      · rw [if_neg he]
        show (match alookup (aerase w.db ("content:" ++ h)) ("content:" ++ h1)
          with | some (.metaV m1) => m1.refCount | _ => 0) = rcOf w h1
        rw [alookup_aerase_ne _ _ _ (fun hc => he (contentKey_inj _ _ hc))]
        rfl
    · constructor
      · exact nodupKeys_aerase _ _ hdbok.1
      · intro k m1 hl1
        have hl2 : alookup (aerase w.db ("content:" ++ h)) k = some (.metaV m1) := hl1
        by_cases hk : k = "content:" ++ h
        · rw [hk, alookup_aerase_self _ _ hdbok.1] at hl2
          simp at hl2
        · rw [alookup_aerase_ne w.db ("content:" ++ h) k hk] at hl2
          exact hdbok.2 k m1 hl2
  · refine ⟨{ w with db := storeMeta w.db { m with refCount := m.refCount - 1 } }, ?_, ?_, ?_⟩
    · simp only [safeDelete, hval, if_true, hgm]
      rw [if_neg hnz, if_neg hone]
    · intro h1
      have hdb1 : ({ w with db := storeMeta w.db { m with refCount := m.refCount - 1 } } : World).db = aset w.db ("content:" ++ h) (.metaV { m with refCount := m.refCount - 1 }) := by
        show storeMeta w.db _ = _
        unfold storeMeta
        rw [show ({ m with refCount := m.refCount - 1 } : ContentMeta).hash =
          m.hash from rfl, hmh]
      rw [rcOf_eq_of_db w _ h _ hdb1 h1]
      by_cases he : h1 = h
      · rw [if_pos he, if_pos he]
        show m.refCount - 1 = rcOf w h - 1
        omega
      · rw [if_neg he, if_neg he]
    · refine dbOk_aset_meta w _ { m with refCount := m.refCount - 1 } ?_ hdbok
      show storeMeta w.db _ = _
      unfold storeMeta
      rw [show ({ m with refCount := m.refCount - 1 } : ContentMeta).hash =
        m.hash from rfl, hmh]

theorem rollbackDeletes_rcOf (root : String) :
    ∀ (hs : List String) (w w0 : World), DbOk w →
      (∀ h ∈ hs, isValidHash h = true) →
      (∀ h, rcOf w h = rcOf w0 h + hs.count h) →
      ∀ h, rcOf (rollbackDeletes root w hs) h = rcOf w0 h := by
  intro hs
  induction hs with
  | nil =>
    intro w w0 _ _ hrel h
    have := hrel h
    simpa using this
  | cons h0 t ih =>
    intro w w0 hdbok hval hrel h
    have hc0 : (h0 :: t).count h0 = t.count h0 + 1 := by
      simp [List.count_cons]
    have hrc : 1 ≤ rcOf w h0 := by
      have := hrel h0
      rw [hc0] at this
      omega
    obtain ⟨w1, hdel, hrc1, hdbok1⟩ :=
      safeDelete_pos root w h0 (hval h0 (by simp)) hdbok hrc
    show rcOf (rollbackDeletes root
      (match safeDelete root w h0 with | .ok w2 => w2 | .error _ => w) t) h = _
    rw [hdel]
    refine ih w1 w0 hdbok1 (fun h1 hm => hval h1 (by simp [hm])) ?_ h
    intro h1
    rw [hrc1 h1]
    by_cases he : h1 = h0
    · rw [if_pos he, he]
      have h2 := hrel h0
      rw [hc0] at h2
      have h3 : t.count h0 = t.count h0 := rfl
      omega
    · rw [if_neg he]
      have h2 := hrel h1
      have h3 : (h0 :: t).count h1 = t.count h1 := by
        simp [List.count_cons, he]
      omega

theorem storeBatchLoop_spec (root : String) (now : Nat) :
    ∀ (rest : List Bytes) (w : World) (acc : List String) (w0 : World),
      DbOk w →
      (∀ h ∈ acc, isValidHash h = true) →
      (∀ h, rcOf w h = rcOf w0 h + acc.count h) →
      (∀ h, rcOf w0 h + acc.count h + rest.length < 4294967296) →
      (∀ e wF, storeBatchLoop root now w rest acc = (.error e, wF) →
        ∀ h, rcOf wF h = rcOf w0 h) ∧
      (∀ hs wF, storeBatchLoop root now w rest acc = (.ok hs, wF) →
        hs = acc.reverse ++ rest.map hashContent) := by
  intro rest
  induction rest with
  | nil =>
    intro w acc w0 _ _ _ _
    constructor
    · intro e wF heq
      exact absurd heq (by simp [storeBatchLoop])
    · intro hs wF heq
      simp [storeBatchLoop] at heq
      simp [heq.1]
  | cons c rest ih =>
    intro w acc w0 hdbok hval hrel hbound
    cases hok : safeStore root now w c with
    | ok p =>
      obtain ⟨h1, w1⟩ := p
      have hh1 : h1 = hashContent c :=
        (safeStore_ok_db root now w c h1 w1 hok).1
      have hwrap : rcOf w (hashContent c) + 1 < 4294967296 := by
        have hb := hbound (hashContent c)
        have h2 := hrel (hashContent c)
        simp [List.length_cons] at hb
        omega
      obtain ⟨hrc1, hdbok1⟩ :=
        safeStore_ok_rcOf root now w c h1 w1 hok hdbok hwrap
      have hstep : storeBatchLoop root now w (c :: rest) acc =
          storeBatchLoop root now w1 rest (h1 :: acc) := by
        show (match safeStore root now w c with
          | .ok (h, w2) => storeBatchLoop root now w2 rest (h :: acc)
          | .error e => (.error e, rollbackDeletes root w acc.reverse)) = _
        rw [hok]
      have hval1 : ∀ h ∈ h1 :: acc, isValidHash h = true := by
        intro h hm
        rcases List.mem_cons.mp hm with hm1 | hm2
        · rw [hm1, hh1]
          exact hashContent_valid c
        · exact hval h hm2
      have hrel1 : ∀ h, rcOf w1 h = rcOf w0 h + (h1 :: acc).count h := by
        intro h
        rw [hrc1 h, hh1]
        by_cases he : h = hashContent c
        · rw [if_pos he]
          have h2 := hrel h
          have h3 : (hashContent c :: acc).count h = acc.count h + 1 := by
            simp [List.count_cons, he]
          rw [he] at h2 h3 ⊢
          omega
        · rw [if_neg he]
          have h2 := hrel h
          have h3 : (hashContent c :: acc).count h = acc.count h := by
            simp [List.count_cons, he]
          omega
      have hbound1 : ∀ h,
          rcOf w0 h + (h1 :: acc).count h + rest.length < 4294967296 := by
        intro h
        have hb := hbound h
        simp [List.length_cons] at hb
        by_cases he : h = h1
        · have h3 : (h1 :: acc).count h = acc.count h + 1 := by
            simp [List.count_cons, he]
          omega
        · have h3 : (h1 :: acc).count h = acc.count h := by
            simp [List.count_cons, he]
          omega
      have ihres := ih w1 (h1 :: acc) w0 hdbok1 hval1 hrel1 hbound1
      constructor
      · intro e wF heq
        rw [hstep] at heq
        exact ihres.1 e wF heq
      · intro hs wF heq
        rw [hstep] at heq
        have hres := ihres.2 hs wF heq
        rw [hres, hh1]
        simp
    | error e =>
      have hstep : storeBatchLoop root now w (c :: rest) acc =
          (.error e, rollbackDeletes root w acc.reverse) := by
        show (match safeStore root now w c with
          | .ok (h, w2) => storeBatchLoop root now w2 rest (h :: acc)
          | .error e1 => (.error e1, rollbackDeletes root w acc.reverse)) = _
        rw [hok]
      rw [hstep]
      constructor
      · intro e1 wF heq
        intro h
        have hw : wF = rollbackDeletes root w acc.reverse := by
          have := congrArg Prod.snd heq
          simpa using this.symm
        rw [hw]
        refine rollbackDeletes_rcOf root acc.reverse w w0 hdbok
          (fun h2 hm => hval h2 (List.mem_reverse.mp hm)) ?_ h
        intro h2
        rw [hrel h2, List.count_reverse]
      · intro hs wF heq
        simp at heq

/-- C8: If StoreBatch fails while storing item i, the rollback deletes the
hashes already stored for items 0..i-1 so that every reference count returns
to its value before the batch (no leaked references); on success StoreBatch
returns one hash per input item, in input order. (Stated for databases whose
keys are duplicate-free and consistent with the metadata hash field, and
whose reference counts cannot overflow the uint32 counter during the batch.)
-/
theorem storeBatch_rollback_refcounts (root : String) (now : Nat) (w : World)
    (contents : List Bytes) (hdbok : DbOk w)
    (hbound : ∀ h, rcOf w h + contents.length < 4294967296) :
    (∀ e wF, safeStoreBatch root now w contents = (.error e, wF) →
      ∀ h, rcOf wF h = rcOf w h) ∧
    (∀ hs wF, safeStoreBatch root now w contents = (.ok hs, wF) →
      hs = contents.map hashContent) := by
  have hmain := storeBatchLoop_spec root now contents w [] w hdbok
    (by intro h hm; simp at hm)
    (by intro h; simp)
    (by intro h; simpa using hbound h)
  constructor
  · intro e wF heq
    exact hmain.1 e wF heq
  · intro hs wF heq
    have := hmain.2 hs wF heq
    simpa using this

theorem storeBatch_rollback_witness :
    DbOk (emptyWorld 0) ∧
    (∀ h, rcOf (emptyWorld 0) h + 1 < 4294967296) ∧
    ((∀ e wF, safeStoreBatch "r" 0 (emptyWorld 0) [[0]] = (.error e, wF) →
        ∀ h, rcOf wF h = rcOf (emptyWorld 0) h) ∧
      (∀ hs wF, safeStoreBatch "r" 0 (emptyWorld 0) [[0]] = (.ok hs, wF) →
        hs = [[0]].map hashContent)) := by
  have hdbok : DbOk (emptyWorld 0) := by
    constructor
    · simp [emptyWorld]
    · intro k m hk
      simp [emptyWorld, alookup] at hk
  have hbound : ∀ h, rcOf (emptyWorld 0) h + 1 < 4294967296 := by
    intro h
    show (0 : Nat) + 1 < 4294967296
    norm_num
  refine ⟨hdbok, hbound, ?_⟩
  have := storeBatch_rollback_refcounts "r" 0 (emptyWorld 0) [[0]] hdbok
    (by intro h; simpa using hbound h)
  exact this

/-! ### Workspace model (internal/workspace/local.go, internal/change/auto_tracker.go)

The workspace keeps an in-memory gated-change map, its own key-value
database (badger), and the shared on-disk state: the working tree and the
content store both live in the world's file map, and the content store's
metadata database is the world's db. -/

structure Workspace where
  root : String
  gatedChanges : List (String × WsChange)
  wsDb : List (String × DBVal)
  world : World
deriving DecidableEq

/-- saveGatedChanges: persist every gated change under the key
"gated:<path>" in the workspace database. -/
def saveGatedChanges (ws : Workspace) : Workspace :=
  let d1 := ws.gatedChanges.foldl
    (fun d kv => aset d ("gated:" ++ kv.1) (.changeV kv.2)) ws.wsDb
  { ws with wsDb := d1 }

/-- The iterator's key filter in LoadGatedChanges: a key is visited exactly
when it starts with "gated:", and the path is the key with that namespace
trimmed off the front. -/
def gatedKeyRest (k : String) : Option String :=
  match k.data with
  | 'g' :: 'a' :: 't' :: 'e' :: 'd' :: ':' :: rest => some (String.mk rest)
  | _ => none

/-- LoadGatedChanges: rebuild the gated-change map from every database key
starting with "gated:", decoding each value as a Change (a value of any
other shape is a decode error). -/
def loadGatedChanges (ws : Workspace) : Option Workspace :=
  match ws.wsDb.foldl
      (fun acc kv =>
        match acc with
        | none => none
        | some m =>
          match gatedKeyRest kv.1 with
          | some p =>
            match kv.2 with
            | .changeV c => some (aset m p c)
            | _ => none
          | none => some m)
      (some ([] : List (String × WsChange))) with
  | none => none
  | some m => some { ws with gatedChanges := m }

/-- Ungate: for each path, remove it from the in-memory gated map and
delete the database key "gated/<path>" (the constant gatedChangePrefix);
deleting an absent key succeeds in badger. -/
def wsUngate (ws : Workspace) (paths : List String) : Workspace :=
  paths.foldl
    (fun s p =>
      { s with gatedChanges := aerase s.gatedChanges p,
               wsDb := aerase s.wsDb ("gated/" ++ p) }) ws

/-- gateFile: read the file, hash it, store the content in the content
store, and record the change in the in-memory gated map. No file-state
record is written to the workspace database. -/
def wsGateFile (now : Nat) (ws : Workspace) (relPath : String) :
    Except SafeErr Workspace :=
  match alookup ws.world.fs (ws.root ++ "/" ++ relPath) with
  | none => .error .notFound
  | some content =>
    match safeStore (ws.root ++ "/.tig/content") now ws.world content with
    | .error e => .error e
    | .ok (_, w1) =>
      let changeType :=
        if (alookup ws.gatedChanges relPath).isSome then "modify" else "add"
      let ch : WsChange :=
        { path := relPath, type := changeType, oldPath := "",
          oldHash := "", newHash := hashContent content, mode := 0,
          size := content.length, modTime := now, diff := "",
          gated := true, content := "" }
      .ok { ws with world := w1, gatedChanges := aset ws.gatedChanges relPath ch }

/-- LocalTracker.Untrack: for each path, drop it from the tracked map and
delete its persisted file-state record "file_state:<path>". -/
def wsUntrack (ws : Workspace) (paths : List String) : Workspace :=
  paths.foldl
    (fun s p => { s with wsDb := aerase s.wsDb ("file_state:" ++ p) }) ws

/-- CleanupGatedChanges keeps the entry for (path, ch) when the working-tree
file still exists, when no hash is available or the hash is shorter than two
characters, or when a file exists at Root/.tig/content/<hash[:2]>/<hash> --
the full hash as file name, not the store's own layout. -/
def cleanupKeeps (root : String) (fs : List (String × Bytes))
    (path : String) (ch : WsChange) : Bool :=
  match alookup fs (root ++ "/" ++ path) with
  | some _ => true
  | none =>
    let newHash := if ch.newHash = "" then ch.oldHash else ch.newHash
    if newHash = "" then true
    else if newHash.length < 2 then true
    else
      match alookup fs
          (root ++ "/.tig/content/" ++ newHash.take 2 ++ "/" ++ newHash) with
      | some _ => true
      | none => false

/-- CleanupGatedChanges: drop every gated entry whose working-tree file is
missing and whose content check (above) also fails. -/
def cleanupGatedChanges (root : String) (fs : List (String × Bytes))
    (gated : List (String × WsChange)) : List (String × WsChange) :=
  gated.filter (fun kv => cleanupKeeps root fs kv.1 kv.2)

/-- The Ungate scenario: a single gated change at "file.txt" persisted by
saveGatedChanges, then Ungate(["file.txt"]). -/
def ungateScenario (ch : WsChange) : Workspace :=
  wsUngate
    (saveGatedChanges
      { root := "r", gatedChanges := [("file.txt", ch)], wsDb := [],
        world := emptyWorld 0 })
    ["file.txt"]

/-- C4: code bug. Ungate removes the path from the in-memory gated map, but
it deletes the database key "gated/<path>" while saveGatedChanges persists
under "gated:<path>" and LoadGatedChanges reads the "gated:" namespace, so
the durable record survives every Ungate and the gated change reappears
after a reload, for every gated change value. -/
theorem ungate_leaves_durable_record (ch : WsChange) :
    (ungateScenario ch).gatedChanges = [] ∧
    alookup (ungateScenario ch).wsDb ("gated:" ++ "file.txt") =
      some (.changeV ch) ∧
    (loadGatedChanges (ungateScenario ch)).map Workspace.gatedChanges =
      some [("file.txt", ch)] := by
  refine ⟨rfl, rfl, rfl⟩

/-- A 64-character lowercase hex hash used by the cleanup scenario. -/
def hashAAA : String :=
  "aaaaaaaaaaaaaaaaaaaaaaaaaaaaaaaaaaaaaaaaaaaaaaaaaaaaaaaaaaaaaaaa"

/-- A gated delete whose working-tree file is gone but whose content blob is
still stored; its change record carries the content hash. -/
def chGone : WsChange :=
  { path := "gone.txt", type := "delete", oldPath := "", oldHash := "",
    newHash := hashAAA, mode := 0, size := 0, modTime := 0, diff := "",
    gated := true, content := "" }

/-- The on-disk state of the cleanup scenario: no working-tree file, and the
content blob stored where the content store writes it, at
contentPath Root/.tig/content hashAAA = Root/.tig/content/<h[:2]>/<h[2:]>. -/
def cleanupFs : List (String × Bytes) :=
  [(contentPath "r/.tig/content" hashAAA, [97])]

/-- C5: code bug. A gated entry whose file is missing but whose content blob
still exists in the store is nonetheless discarded: CleanupGatedChanges
stats Root/.tig/content/hash[:2]/hash (the full hash as file name), while
the store writes blobs to Root/.tig/content/hash[:2]/hash[2:], so the
existence check misses every live blob and the entry is removed. -/
theorem cleanup_discards_live_blob :
    alookup cleanupFs (contentPath "r/.tig/content" chGone.newHash) =
      some [97] ∧
    alookup cleanupFs ("r" ++ "/" ++ "gone.txt") = none ∧
    cleanupGatedChanges "r" cleanupFs [("gone.txt", chGone)] = [] := by
  refine ⟨by decide, by decide, by decide⟩

/-- The gating scenario: a fresh workspace whose working tree holds one
two-byte file at Root/file.txt. -/
def gateScenario : Workspace :=
  { root := "r", gatedChanges := [], wsDb := [],
    world := { fs := [("r/file.txt", [104, 105])], db := [], cache := [],
               cacheSize := 0 } }

/-- A workspace whose database already holds a file-state record, for the
Untrack half of the file-state lifecycle. -/
def untrackScenario : Workspace :=
  { root := "r", gatedChanges := [],
    wsDb := [("file_state:file.txt",
      .stateV { hash := "h", modTime := 0, size := 2 })],
    world := emptyWorld 0 }

/-- C9: code bug. Gating a file succeeds, stores the content, and records
the change in the gated map, yet writes no "file_state:<path>" record: the
storeFileState/updateFileState helpers are never called, so no FileState is
created or updated when a file is gated. Untrack does delete an existing
file-state record, as claimed. -/
theorem gate_writes_no_file_state :
    (wsGateFile 0 gateScenario "file.txt").toOption.map
        (fun ws1 => (alookup ws1.wsDb "file_state:file.txt",
          (alookup ws1.gatedChanges "file.txt").isSome)) =
      some (none, true) ∧
    alookup (wsUntrack untrackScenario ["file.txt"]).wsDb
      "file_state:file.txt" = none := by
  refine ⟨by decide, by decide⟩

/-! ### Diff engine (internal/diff/diff.go)

Lines are kept as byte lists; Content on a Go Line is the line's bytes.
OldNum and NewNum are never assigned by extractHunks or addContextLines and
stay at their zero values. -/

inductive LineType where
  | context
  | addition
  | deletion
deriving DecidableEq

structure DiffLine where
  type : LineType
  content : Bytes
  oldNum : Nat
  newNum : Nat
deriving DecidableEq

structure Hunk where
  oldStart : Nat
  oldLines : Nat
  newStart : Nat
  newLines : Nat
  lines : List DiffLine
deriving DecidableEq

structure DiffStats where
  additions : Nat
  deletions : Nat
  changes : Nat
deriving DecidableEq

structure DiffResult where
  hunks : List Hunk
  stats : DiffStats
deriving DecidableEq

def mkLine (t : LineType) (c : Bytes) : DiffLine :=
  { type := t, content := c, oldNum := 0, newNum := 0 }

def prependLine (l : DiffLine) (h : Hunk) : Hunk :=
  { h with lines := l :: h.lines }

def appendLine (h : Hunk) (l : DiffLine) : Hunk :=
  { h with lines := h.lines ++ [l] }

def bumpNew (h : Hunk) : Hunk :=
  { h with newLines := h.newLines + 1 }

def bumpOld (h : Hunk) : Hunk :=
  { h with oldLines := h.oldLines + 1 }

def freshHunk (i j : Nat) : Hunk :=
  { oldStart := i, oldLines := 0, newStart := j, newLines := 0, lines := [] }

def trimNewlineSuffix (b : Bytes) : Bytes :=
  if b.getLast? = some 10 then b.dropLast else b

def lcsNextRow (old new : List Bytes) (i : Nat) (prev : List Nat) : List Nat :=
  (List.range (new.length + 1)).foldl
    (fun row j =>
      if j = 0 then row ++ [0]
      else
        let v :=
          if old.getD (i - 1) [] = new.getD (j - 1) [] then
            prev.getD (j - 1) 0 + 1
          else
            max (prev.getD j 0) (row.getD (j - 1) 0)
        row ++ [v])
    []

def lcsMatrix (old new : List Bytes) : List (List Nat) :=
  (List.range old.length).foldl
    (fun mat i => mat ++ [lcsNextRow old new (i + 1) (mat.getD i [])])
    [List.replicate (new.length + 1) 0]

def lcsAt (old new : List Bytes) (i j : Nat) : Nat :=
  ((lcsMatrix old new).getD i []).getD j 0

def extractLoop (old new : List Bytes) :
    Nat → Nat → Nat → Option Hunk → List Hunk → List Hunk
  | 0, _, _, _, hunks => hunks
  | fuel + 1, i, j, cur, hunks =>
    if i = 0 ∧ j = 0 then hunks
    else
      let step : Nat × Nat × Option Hunk :=
        if 0 < i ∧ 0 < j ∧ old.getD (i - 1) [] = new.getD (j - 1) [] then
          (i - 1, j - 1,
            match cur with
            | some h => some (prependLine (mkLine .context (old.getD (i - 1) [])) h)
            | none => none)
        else if 0 < j ∧ (i = 0 ∨ lcsAt old new (i - 1) j ≤ lcsAt old new i (j - 1)) then
          let h0 := match cur with
            | some h => h
            | none => freshHunk i j
          (i, j - 1, some (bumpNew (prependLine (mkLine .addition (new.getD (j - 1) [])) h0)))
        else if 0 < i ∧ (j = 0 ∨ lcsAt old new i (j - 1) < lcsAt old new (i - 1) j) then
          let h0 := match cur with
            | some h => h
            | none => freshHunk i j
          (i - 1, j, some (bumpOld (prependLine (mkLine .deletion (old.getD (i - 1) [])) h0)))
        else (i, j, cur)
      match step with
      | (i1, j1, cur1) =>
        match cur1 with
        | some h =>
          if 0 < h.lines.length then extractLoop old new fuel i1 j1 none (h :: hunks)
          else extractLoop old new fuel i1 j1 cur1 hunks
        | none => extractLoop old new fuel i1 j1 none hunks

def addContextLines (ctxn : Nat) (hunks : List Hunk) (old : List Bytes) :
    List Hunk :=
  if ctxn = 0 then hunks
  else hunks.enum.map (fun p =>
    let idx := p.1
    let hunk := p.2
    let cs := hunk.oldStart - ctxn
    let h1 := (List.range' cs (hunk.oldStart - cs)).foldl
      (fun h jj => prependLine (mkLine LineType.context (old.getD jj [])) h) hunk
    if idx < hunks.length - 1 then
      let base := hunk.oldStart + hunk.oldLines
      let ce := min old.length (base + ctxn)
      (List.range' base (ce - base)).foldl
        (fun h jj => appendLine h (mkLine LineType.context (old.getD jj []))) h1
    else h1)

def diffRun (ctxn : Nat) (oldContent newContent : Bytes) : DiffResult :=
  let oldLines := List.splitOn 10 (trimNewlineSuffix oldContent)
  let newLines := List.splitOn 10 (trimNewlineSuffix newContent)
  let hunks0 := extractLoop oldLines newLines
    (oldLines.length + newLines.length) oldLines.length newLines.length
    none []
  let hunks := addContextLines ctxn hunks0 oldLines
  let adds := hunks.foldl
    (fun n h => n + (h.lines.filter (fun l => l.type == LineType.addition)).length) 0
  let dels := hunks.foldl
    (fun n h => n + (h.lines.filter (fun l => l.type == LineType.deletion)).length) 0
  { hunks := hunks,
    stats := { additions := adds, deletions := dels, changes := adds + dels } }

def mkHunk (os ol ns nl : Nat) (ls : List DiffLine) : Hunk :=
  { oldStart := os, oldLines := ol, newStart := ns, newLines := nl,
    lines := ls }

/-- C6: code bug. Diffing "a\nb\nc\n" against "a\nx\nc\n" with one context
line yields two hunks, not one: extractHunks flushes the current hunk at the
end of every loop iteration, so every changed line lands in its own
single-line hunk and contiguous non-context runs are never grouped. The
context attached to each hunk is the changed line "b" itself rather than the
claimed surrounding lines "a" and "c" (addContextLines reads old lines
starting at the hunk's OldStart, which is one past the changed line). The
stats additions=1, deletions=1, changes=2 do match the claim. -/
theorem diff_one_line_hunks_bug :
    (diffRun 1 [97, 10, 98, 10, 99, 10] [97, 10, 120, 10, 99, 10]).hunks =
      [mkHunk 2 1 1 0 [mkLine .context [98], mkLine .deletion [98]],
       mkHunk 2 0 2 1 [mkLine .context [98], mkLine .addition [120]]] ∧
    (diffRun 1 [97, 10, 98, 10, 99, 10] [97, 10, 120, 10, 99, 10]).stats =
      { additions := 1, deletions := 1, changes := 2 } := by
  refine ⟨by decide, by decide⟩
